import Mathlib

/-!
Verification of the `safe_treap` persistent treap (src/treap.go).

The Go code is shallowly embedded:

* `*Node` (a possibly-nil pointer to an immutable node) becomes the
  inductive `Node` with constructors `Node.nil` (the nil pointer) and
  `Node.node` (a `Node` value with its five fields, in source order:
  `Weight`, `Key`, `Item`, `Left`, `Right`).
* `interface{}` keys and items become type parameters `α` and `β`;
  `Weight int` becomes `Int`.
* The `Comparator` type is not part of src/treap.go (only its uses are);
  it is modelled from the spec as a two-argument total function to `Int`.
* `Handle` keeps its two comparator fields; since Go function fields may
  be nil, they are modelled as `Option` comparators.  The tree operations
  themselves are parameterised directly by the two (non-nil) comparator
  functions, which is the only situation in which Go can run them
  (calling a nil func panics).
* Go's multiple return values become pairs; a nil result pointer is
  `Node.nil`.

A second, store-based embedding (`NodeS`, pointers as `Nat` indices into
an append-only `List` store) appears further below; it models Go's heap
explicitly and is used for the persistence / allocation claims.
-/

set_option maxHeartbeats 1000000

namespace SafeTreap

/-- Modelled from the spec: the repository's `Comparator` type is not in
src/treap.go.  Per the spec it is "a caller-supplied total-order function
returning negative/zero/positive for less/equal/greater". -/
def Comparator (α : Type) : Type := α → α → Int

/-- Go `*Node`: either the nil pointer or a node with the five fields of
`struct Node` (src/treap.go lines 16-20), in source order. -/
inductive Node (α β : Type) : Type where
  | nil : Node α β
  | node (Weight : Int) (Key : α) (Item : β) (Left Right : Node α β) : Node α β
deriving DecidableEq

/-- Go `Handle` (src/treap.go lines 24-26): the two comparator fields.
Go function-typed fields may be nil, hence `Option`. -/
structure Handle (α : Type) : Type where
  CompareWeights : Option (Comparator Int)
  CompareKeys : Option (Comparator α)

/-- Go `Treap` (src/treap.go lines 8-11): a handle pointer plus the root. -/
structure Treap (α β : Type) : Type where
  handle : Handle α
  root : Node α β

/-- Go `NewTreap` (src/treap.go lines 28-35).  The argument is `*Handle`,
modelled as `Option (Handle α)`; the `(​*Treap, error)` result is modelled
as `Except String (Treap α β)` with the error string of line 30. -/
def NewTreap (α β : Type) (h : Option (Handle α)) : Except String (Treap α β) :=
  match h with
  | none => Except.error "comparator is nil"
  | some h => Except.ok { handle := h, root := Node.nil }

/-- Go `GetNode` (src/treap.go lines 48-61), with the key comparator `ck`
passed explicitly (it is `t.handle.CompareKeys` in the source). -/
def GetNode (ck : Comparator α) : Node α β → α → Node α β × Bool
  | Node.nil, _ => (Node.nil, false)
  | Node.node w k v l r, key =>
    let comp := ck key k
    if comp < 0 then GetNode ck l key
    else if comp > 0 then GetNode ck r key
    else (Node.node w k v l r, true)

/-- The `Item` field of a non-nil node. -/
def Node.item? : Node α β → Option β
  | Node.nil => none
  | Node.node _ _ v _ _ => some v

/-- Go `Get` (src/treap.go lines 39-44): run `GetNode`; on success return
the found node's `Item` (the zero value of `v interface{}` is `none`). -/
def Get (ck : Comparator α) (n : Node α β) (key : α) : Option β × Bool :=
  match GetNode ck n key with
  | (m, true) => (m.item?, true)
  | (_, false) => (none, false)

/-- Go `Min` (src/treap.go lines 63-72).  The Go method reads `t.root`;
the loop "follow `Left` until nil, then return `Item`" is modelled by
recursion on the tree passed in as that root. -/
def Min : Node α β → Option β
  | Node.nil => none
  | Node.node _ _ v Node.nil _ => some v
  | Node.node _ _ _ (Node.node lw lk lv ll lr) _ => Min (Node.node lw lk lv ll lr)

/-- Go `Max` (src/treap.go lines 74-83), mirror of `Min`. -/
def Max : Node α β → Option β
  | Node.nil => none
  | Node.node _ _ v _ Node.nil => some v
  | Node.node _ _ _ _ (Node.node rw rk rv rl rr) => Max (Node.node rw rk rv rl rr)

/-- Go `leftRotation` (src/treap.go lines 161-175).  The source
unconditionally dereferences `n.Left`; the fallthrough case (nil root or
nil left child, where Go would panic) returns the argument unchanged and
is proved unreachable from `upsert` separately (see `upsertChecked`). -/
def leftRotation : Node α β → Node α β
  | Node.node w k v (Node.node lw lk lv ll lr) r =>
    Node.node lw lk lv ll (Node.node w k v lr r)
  | t => t

/-- Go `rightRotation` (src/treap.go lines 177-191), mirror image. -/
def rightRotation : Node α β → Node α β
  | Node.node w k v l (Node.node rw rk rv rl rr) =>
    Node.node rw rk rv (Node.node w k v l rl) rr
  | t => t

/-- The rebalancing step of `upsert` (src/treap.go lines 152-156):
`if res.Left != nil && CompareWeights(res.Left.Weight, res.Weight) < 0`
then left-rotate, `else if` the mirror test on `res.Right` then
right-rotate.  The `&&` short-circuit is modelled by matching on the
child before reading its weight. -/
def rebalance (cw : Comparator Int) : Node α β → Node α β
  | Node.nil => Node.nil
  | Node.node w k v l r =>
    match l with
    | Node.node lw lk lv ll lr =>
      if cw lw w < 0 then leftRotation (Node.node w k v (Node.node lw lk lv ll lr) r)
      else
        match r with
        | Node.node rw rk rv rl rr =>
          if cw rw w < 0 then
            rightRotation (Node.node w k v (Node.node lw lk lv ll lr) (Node.node rw rk rv rl rr))
          else Node.node w k v (Node.node lw lk lv ll lr) (Node.node rw rk rv rl rr)
        | Node.nil => Node.node w k v (Node.node lw lk lv ll lr) Node.nil
    | Node.nil =>
      match r with
      | Node.node rw rk rv rl rr =>
        if cw rw w < 0 then rightRotation (Node.node w k v Node.nil (Node.node rw rk rv rl rr))
        else Node.node w k v Node.nil (Node.node rw rk rv rl rr)
      | Node.nil => Node.node w k v Node.nil Node.nil

/-- Go `upsert` (src/treap.go lines 92-159), with the two comparators
passed explicitly.  Notes on the translation:

* the `switch t.handle.CompareKeys(k, n.Key)` matches the exact values
  `-1` and `1`; everything else falls to `default`;
* in the `-1`/`1` cases a nil recursive result is returned immediately
  (`if res == nil { return }`), propagating `(nil, created)`;
* in the `default` case, `!update` returns the zero values `(nil, false)`;
  a supplied `fn` returning false returns the untouched node; otherwise a
  rebuilt node takes the new weight `w`, and takes `Item = v` exactly when
  `create` is set (lines 139-149, including the `res.Item = v` write to
  the still-unpublished fresh node);
* the surviving cases fall through to the rebalancing step. -/
def upsert (ck : Comparator α) (cw : Comparator Int) :
    Node α β → α → β → Int → Bool → Bool → Option (Node α β → Bool) → Node α β × Bool
  | Node.nil, k, v, w, create, _, _ =>
    if create then (Node.node w k v Node.nil Node.nil, true) else (Node.nil, false)
  | Node.node nw nk nv nl nr, k, v, w, create, update, fn =>
    if ck k nk = -1 then
      match upsert ck cw nl k v w create update fn with
      | (Node.nil, created) => (Node.nil, created)
      | (Node.node rw rk rv rl rr, created) =>
        (rebalance cw (Node.node nw nk nv (Node.node rw rk rv rl rr) nr), created)
    else if ck k nk = 1 then
      match upsert ck cw nr k v w create update fn with
      | (Node.nil, created) => (Node.nil, created)
      | (Node.node rw rk rv rl rr, created) =>
        (rebalance cw (Node.node nw nk nv nl (Node.node rw rk rv rl rr)), created)
    else
      if !update then (Node.nil, false)
      else
        match fn with
        | some f =>
          if !(f (Node.node nw nk nv nl nr)) then (Node.node nw nk nv nl nr, false)
          else (rebalance cw (Node.node w nk (if create then v else nv) nl nr), false)
        | none => (rebalance cw (Node.node w nk (if create then v else nv) nl nr), false)

/-- Go `Insert` (src/treap.go lines 88-90): `upsert` with
`create = true`, `update = false`, `fn = nil`. -/
def Insert (ck : Comparator α) (cw : Comparator Int) (n : Node α β) (k : α) (v : β)
    (w : Int) : Node α β × Bool :=
  upsert ck cw n k v w true false none

/-! ### Specification-level notions: in-order contents, invariants, comparator laws -/

/-- In-order traversal of the tree's (key, item) pairs. -/
def inorderPairs : Node α β → List (α × β)
  | Node.nil => []
  | Node.node _ k v l r => inorderPairs l ++ (k, v) :: inorderPairs r

/-- In-order list of keys. -/
def keysList (t : Node α β) : List α := (inorderPairs t).map Prod.fst

/-- The search-tree invariant, executable: every key of the left subtree
compares `-1` against the node key, every key of the right subtree
compares the node key `-1` against it, recursively. -/
def isBSTb (ck : Comparator α) : Node α β → Bool
  | Node.nil => true
  | Node.node _ k _ l r =>
    isBSTb ck l && isBSTb ck r
      && (keysList l).all (fun x => ck x k == -1)
      && (keysList r).all (fun x => ck k x == -1)

/-- A (possibly nil) child is an acceptable child of a node with weight
`pw`: `compareWeights(c.Weight, pw) >= 0` (the child does not outrank the
parent). -/
def childOKb (cw : Comparator Int) (c : Node α β) (pw : Int) : Bool :=
  match c with
  | Node.nil => true
  | Node.node w _ _ _ _ => decide (0 ≤ cw w pw)

/-- The heap invariant, executable: no child outranks its parent. -/
def isHeapb (cw : Comparator Int) : Node α β → Bool
  | Node.nil => true
  | Node.node w _ _ l r => childOKb cw l w && childOKb cw r w && isHeapb cw l && isHeapb cw r

/-- The comparator contract of the spec: a strict total order returning
`-1`, `0` or `1`, where `0` identifies equal elements. -/
structure IsSTO (ck : Comparator α) : Prop where
  valid : ∀ a b, ck a b = -1 ∨ ck a b = 0 ∨ ck a b = 1
  eq_iff : ∀ a b, ck a b = 0 ↔ a = b
  lt_iff : ∀ a b, ck a b = -1 ↔ ck b a = 1
  lt_trans : ∀ a b c, ck a b = -1 → ck b c = -1 → ck a c = -1

/-- The standard integer comparator, used to instantiate theorems. -/
def intCmp : Comparator Int := fun a b => if a < b then -1 else if a = b then 0 else 1

/-- A total-order comparator whose values fall outside `{-1, 0, 1}`:
negative/zero/positive per the spec's wording, but `-2`/`2` for distinct
elements.  Used to exhibit the `upsert` vs. `GetNode` branching mismatch. -/
def cmp2 : Comparator Int := fun a b => if a < b then -2 else if b < a then 2 else 0

/-- Trees reachable from the empty tree by `Insert` operations. -/
inductive Reachable (ck : Comparator α) (cw : Comparator Int) : Node α β → Prop where
  | empty : Reachable ck cw Node.nil
  | insert (t : Node α β) (k : α) (v : β) (w : Int) :
      Reachable ck cw t → Reachable ck cw (Insert ck cw t k v w).1

/-- Sorted-position insertion into an association list: the reference
shape of `Insert`'s effect on the in-order contents. -/
def insPair (ck : Comparator α) (k : α) (v : β) : List (α × β) → List (α × β)
  | [] => [(k, v)]
  | (k', v') :: rest =>
    if ck k k' = -1 then (k, v) :: (k', v') :: rest else (k', v') :: insPair ck k v rest

/-- The `Weight` field of a node (`0` for the nil pointer; only ever used
on non-nil trees). -/
def Node.weight : Node α β → Int
  | Node.nil => 0
  | Node.node w _ _ _ _ => w

/-- The `Left` field (nil for the nil pointer). -/
def Node.leftChild : Node α β → Node α β
  | Node.nil => Node.nil
  | Node.node _ _ _ l _ => l

/-- The `Right` field (nil for the nil pointer). -/
def Node.rightChild : Node α β → Node α β
  | Node.nil => Node.nil
  | Node.node _ _ _ _ r => r

/-! ### Nil-dereference safety: a checked interpreter for `upsert`

`leftRotation`/`rightRotation` dereference `n.Left`/`n.Right` without a
nil check.  The checked variants return `none` exactly when Go would hit
a nil-pointer dereference; `upsertChecked` propagates such a panic.  -/

/-- `leftRotation` with the nil dereferences made explicit: `none` when
Go would panic (nil receiver or nil `Left` child). -/
def leftRotationChecked : Node α β → Option (Node α β)
  | Node.node w k v (Node.node lw lk lv ll lr) r =>
    some (Node.node lw lk lv ll (Node.node w k v lr r))
  | _ => none

/-- `rightRotation` with the nil dereferences made explicit. -/
def rightRotationChecked : Node α β → Option (Node α β)
  | Node.node w k v l (Node.node rw rk rv rl rr) =>
    some (Node.node rw rk rv (Node.node w k v l rl) rr)
  | _ => none

/-- The rebalancing step (src/treap.go lines 152-156) calling the
checked rotations. -/
def rebalanceChecked (cw : Comparator Int) : Node α β → Option (Node α β)
  | Node.nil => some Node.nil
  | Node.node w k v l r =>
    match l with
    | Node.node lw lk lv ll lr =>
      if cw lw w < 0 then
        leftRotationChecked (Node.node w k v (Node.node lw lk lv ll lr) r)
      else
        match r with
        | Node.node rw rk rv rl rr =>
          if cw rw w < 0 then
            rightRotationChecked
              (Node.node w k v (Node.node lw lk lv ll lr) (Node.node rw rk rv rl rr))
          else some (Node.node w k v (Node.node lw lk lv ll lr) (Node.node rw rk rv rl rr))
        | Node.nil => some (Node.node w k v (Node.node lw lk lv ll lr) Node.nil)
    | Node.nil =>
      match r with
      | Node.node rw rk rv rl rr =>
        if cw rw w < 0 then
          rightRotationChecked (Node.node w k v Node.nil (Node.node rw rk rv rl rr))
        else some (Node.node w k v Node.nil (Node.node rw rk rv rl rr))
      | Node.nil => some (Node.node w k v Node.nil Node.nil)

/-- `upsert` run under the checked semantics: any nil dereference inside
a rotation surfaces as `none`. -/
def upsertChecked (ck : Comparator α) (cw : Comparator Int) :
    Node α β → α → β → Int → Bool → Bool → Option (Node α β → Bool) →
    Option (Node α β × Bool)
  | Node.nil, k, v, w, create, _, _ =>
    if create then some (Node.node w k v Node.nil Node.nil, true)
    else some (Node.nil, false)
  | Node.node nw nk nv nl nr, k, v, w, create, update, fn =>
    if ck k nk = -1 then
      match upsertChecked ck cw nl k v w create update fn with
      | none => none
      | some (Node.nil, created) => some (Node.nil, created)
      | some (Node.node rw rk rv rl rr, created) =>
        match rebalanceChecked cw (Node.node nw nk nv (Node.node rw rk rv rl rr) nr) with
        | none => none
        | some res => some (res, created)
    else if ck k nk = 1 then
      match upsertChecked ck cw nr k v w create update fn with
      | none => none
      | some (Node.nil, created) => some (Node.nil, created)
      | some (Node.node rw rk rv rl rr, created) =>
        match rebalanceChecked cw (Node.node nw nk nv nl (Node.node rw rk rv rl rr)) with
        | none => none
        | some res => some (res, created)
    else
      if !update then some (Node.nil, false)
      else
        match fn with
        | some f =>
          if !(f (Node.node nw nk nv nl nr)) then some (Node.node nw nk nv nl nr, false)
          else
            match rebalanceChecked cw (Node.node w nk (if create then v else nv) nl nr) with
            | none => none
            | some res => some (res, false)
        | none =>
          match rebalanceChecked cw (Node.node w nk (if create then v else nv) nl nr) with
          | none => none
          | some res => some (res, false)

/-! ### Store-based embedding: Go pointers and allocation made explicit

To state persistence ("Insert never mutates a node reachable from its
input root") and the allocation behaviour of the rotations, the same Go
functions are embedded a second time over an explicit heap: cells live
in an append-only list, `&Node{...}` appends a cell, and pointers are
indices (`none` is the nil pointer).  Fuel makes the pointer-chasing
recursions structural; every theorem below holds for every fuel value. -/

/-- A heap cell: the five fields of Go `struct Node`, child pointers as
store indices. -/
structure NodeS (α β : Type) : Type where
  Weight : Int
  Key : α
  Item : β
  Left : Option Nat
  Right : Option Nat
deriving DecidableEq

/-- The Go heap: an append-only allocation store; a cell's address is
its index. -/
abbrev StoreS (α β : Type) : Type := List (NodeS α β)

/-- Pointer validity: nil or an allocated address. -/
def ptrOK (p : Option Nat) (len : Nat) : Bool :=
  match p with
  | none => true
  | some i => decide (i < len)

/-- A closed store: every cell's child pointers are allocated. -/
def closedS (s : StoreS α β) : Bool :=
  s.all fun nd => ptrOK nd.Left s.length && ptrOK nd.Right s.length

/-- Go `GetNode` over the store. -/
def getNodeSF (ck : Comparator α) : Nat → StoreS α β → Option Nat → α → Option Nat × Bool
  | 0, _, _, _ => (none, false)
  | _ + 1, _, none, _ => (none, false)
  | fuel + 1, s, some i, key =>
    match s[i]? with
    | none => (none, false)
    | some n =>
      let comp := ck key n.Key
      if comp < 0 then getNodeSF ck fuel s n.Left key
      else if comp > 0 then getNodeSF ck fuel s n.Right key
      else (some i, true)

/-- Go `Get` over the store. -/
def getSF (ck : Comparator α) (fuel : Nat) (s : StoreS α β) (p : Option Nat)
    (key : α) : Option β × Bool :=
  match getNodeSF ck fuel s p key with
  | (some i, true) => ((s[i]?).map NodeS.Item, true)
  | _ => (none, false)

/-- Go `leftRotation` over the store: reads `n` and `n.Left`, allocates
the rebuilt old root and then the new subtree root (exactly two cells),
reusing the grandchild pointers verbatim.  The `(s, none)` results model
the nil/dangling dereferences Go would panic on (never reached from a
closed store: see `upsertChecked`). -/
def leftRotationS (s : StoreS α β) (i : Nat) : StoreS α β × Option Nat :=
  match s[i]? with
  | none => (s, none)
  | some n =>
    match n.Left with
    | none => (s, none)
    | some li =>
      match s[li]? with
      | none => (s, none)
      | some l =>
        (s ++ [⟨n.Weight, n.Key, n.Item, l.Right, n.Right⟩,
               ⟨l.Weight, l.Key, l.Item, l.Left, some s.length⟩],
         some (s.length + 1))

/-- Go `rightRotation` over the store, mirror image. -/
def rightRotationS (s : StoreS α β) (i : Nat) : StoreS α β × Option Nat :=
  match s[i]? with
  | none => (s, none)
  | some n =>
    match n.Right with
    | none => (s, none)
    | some ri =>
      match s[ri]? with
      | none => (s, none)
      | some r =>
        (s ++ [⟨n.Weight, n.Key, n.Item, n.Left, r.Left⟩,
               ⟨r.Weight, r.Key, r.Item, some s.length, r.Right⟩],
         some (s.length + 1))

/-- The rebalancing step (src/treap.go lines 152-156) over the store. -/
def rebalanceS (cw : Comparator Int) (s : StoreS α β) (i : Nat) : StoreS α β × Option Nat :=
  match s[i]? with
  | none => (s, some i)
  | some n =>
    match n.Left.bind fun j => s[j]? with
    | some l =>
      if cw l.Weight n.Weight < 0 then leftRotationS s i
      else
        match n.Right.bind fun j => s[j]? with
        | some r => if cw r.Weight n.Weight < 0 then rightRotationS s i else (s, some i)
        | none => (s, some i)
    | none =>
      match n.Right.bind fun j => s[j]? with
      | some r => if cw r.Weight n.Weight < 0 then rightRotationS s i else (s, some i)
      | none => (s, some i)

/-- Go `upsert` over the store: path copying allocates one cell per
rebuilt level; nothing already allocated is ever written. -/
def upsertSF (ck : Comparator α) (cw : Comparator Int) :
    Nat → StoreS α β → Option Nat → α → β → Int → Bool → Bool →
    Option (NodeS α β → Bool) → StoreS α β × Option Nat × Bool
  | 0, s, _, _, _, _, _, _, _ => (s, none, false)
  | fuel + 1, s, p, k, v, w, create, update, fn =>
    match p with
    | none =>
      if create then (s ++ [⟨w, k, v, none, none⟩], some s.length, true)
      else (s, none, false)
    | some i =>
      match s[i]? with
      | none => (s, none, false)
      | some n =>
        if ck k n.Key = -1 then
          match upsertSF ck cw fuel s n.Left k v w create update fn with
          | (s1, none, created) => (s1, none, created)
          | (s1, some ri, created) =>
            let s2 := s1 ++ [⟨n.Weight, n.Key, n.Item, some ri, n.Right⟩]
            ((rebalanceS cw s2 s1.length).1, (rebalanceS cw s2 s1.length).2, created)
        else if ck k n.Key = 1 then
          match upsertSF ck cw fuel s n.Right k v w create update fn with
          | (s1, none, created) => (s1, none, created)
          | (s1, some ri, created) =>
            let s2 := s1 ++ [⟨n.Weight, n.Key, n.Item, n.Left, some ri⟩]
            ((rebalanceS cw s2 s1.length).1, (rebalanceS cw s2 s1.length).2, created)
        else
          if !update then (s, none, false)
          else
            match fn with
            | some f =>
              if !(f n) then (s, some i, false)
              else
                let s2 := s ++ [⟨w, n.Key, if create then v else n.Item, n.Left, n.Right⟩]
                ((rebalanceS cw s2 s.length).1, (rebalanceS cw s2 s.length).2, false)
            | none =>
              let s2 := s ++ [⟨w, n.Key, if create then v else n.Item, n.Left, n.Right⟩]
              ((rebalanceS cw s2 s.length).1, (rebalanceS cw s2 s.length).2, false)

/-! ### Comparator lemmas -/

theorem IsSTO.refl0 {ck : Comparator α} (h : IsSTO ck) (a : α) : ck a a = 0 :=
  (h.eq_iff a a).mpr rfl

theorem IsSTO.ge_total {ck : Comparator α} (h : IsSTO ck) (a b : α)
    (hne : ¬ ck a b = -1) : 0 ≤ ck a b := by
  rcases h.valid a b with h1 | h1 | h1 <;> omega

theorem IsSTO.ge_trans {ck : Comparator α} (h : IsSTO ck) (a b c : α)
    (hab : 0 ≤ ck a b) (hbc : 0 ≤ ck b c) : 0 ≤ ck a c := by
  rcases h.valid a b with h1 | h1 | h1
  · omega
  · rw [(h.eq_iff a b).mp h1]; exact hbc
  · rcases h.valid b c with h2 | h2 | h2
    · omega
    · rw [← (h.eq_iff b c).mp h2]; omega
    · have hcb : ck c b = -1 := (h.lt_iff c b).mpr h2
      have hba : ck b a = -1 := (h.lt_iff b a).mpr h1
      have := h.lt_trans c b a hcb hba
      have := (h.lt_iff c a).mp this
      omega

theorem intCmp_sto : IsSTO intCmp := by
  constructor
  · intro a b; simp only [intCmp]; split_ifs <;> omega
  · intro a b; simp only [intCmp]; split_ifs <;> simp <;> omega
  · intro a b; simp only [intCmp]; split_ifs <;> simp <;> omega
  · intro a b c h1 h2
    simp only [intCmp] at h1 h2 ⊢
    split_ifs at h1 h2 ⊢ <;> omega

/-! ### In-order contents: basic lemmas -/

theorem inorderPairs_eq_nil {t : Node α β} : inorderPairs t = [] ↔ t = Node.nil := by
  cases t <;> simp [inorderPairs]

theorem inorder_leftRotation (t : Node α β) :
    inorderPairs (leftRotation t) = inorderPairs t := by
  cases t with
  | nil => rfl
  | node w k v l r =>
    cases l with
    | nil => rfl
    | node lw lk lv ll lr => simp [leftRotation, inorderPairs]

theorem inorder_rightRotation (t : Node α β) :
    inorderPairs (rightRotation t) = inorderPairs t := by
  cases t with
  | nil => rfl
  | node w k v l r =>
    cases r with
    | nil => rfl
    | node rw rk rv rl rr => simp [rightRotation, inorderPairs]

theorem inorder_rebalance (cw : Comparator Int) (t : Node α β) :
    inorderPairs (rebalance cw t) = inorderPairs t := by
  cases t with
  | nil => rfl
  | node w k v l r =>
    cases l with
    | nil =>
      cases r with
      | nil => rfl
      | node rw rk rv rl rr =>
        simp only [rebalance]
        split
        · rw [inorder_rightRotation]
        · rfl
    | node lw lk lv ll lr =>
      cases r with
      | nil =>
        simp only [rebalance]
        split
        · rw [inorder_leftRotation]
        · rfl
      | node rw rk rv rl rr =>
        simp only [rebalance]
        split
        · rw [inorder_leftRotation]
        · split
          · rw [inorder_rightRotation]
          · rfl

theorem keysList_node (w : Int) (k : α) (v : β) (l r : Node α β) :
    keysList (Node.node w k v l r) = keysList l ++ k :: keysList r := by
  simp [keysList, inorderPairs]

theorem keysList_eq_nil {t : Node α β} : keysList t = [] ↔ t = Node.nil := by
  cases t <;> simp [keysList, inorderPairs]

/-! ### `insPair` lemmas -/

theorem insPair_ne_nil (ck : Comparator α) (k : α) (v : β) (L : List (α × β)) :
    insPair ck k v L ≠ [] := by
  cases L with
  | nil => simp [insPair]
  | cons p rest =>
    obtain ⟨k', v'⟩ := p
    simp only [insPair]
    split <;> simp

theorem insPair_mem {ck : Comparator α} {k : α} {v : β} {L : List (α × β)}
    {x : α × β} (hx : x ∈ insPair ck k v L) : x = (k, v) ∨ x ∈ L := by
  induction L with
  | nil => simpa [insPair] using hx
  | cons p rest ih =>
    obtain ⟨k', v'⟩ := p
    simp only [insPair] at hx
    split at hx
    · simp only [List.mem_cons] at hx
      rcases hx with h | h | h
      · exact Or.inl h
      · exact Or.inr (by simp [h])
      · exact Or.inr (by simp [h])
    · simp only [List.mem_cons] at hx
      rcases hx with h | h
      · exact Or.inr (by simp [h])
      · rcases ih h with h' | h'
        · exact Or.inl h'
        · exact Or.inr (by simp [h'])

theorem insPair_self_mem (ck : Comparator α) (k : α) (v : β) (L : List (α × β)) :
    (k, v) ∈ insPair ck k v L := by
  induction L with
  | nil => simp [insPair]
  | cons p rest ih =>
    obtain ⟨k', v'⟩ := p
    simp only [insPair]
    split
    · simp
    · simp [ih]

theorem insPair_append_lt (ck : Comparator α) (k k0 : α) (v v0 : β)
    (L R : List (α × β)) (h : ck k k0 = -1) :
    insPair ck k v (L ++ (k0, v0) :: R) = insPair ck k v L ++ (k0, v0) :: R := by
  induction L with
  | nil => simp [insPair, h]
  | cons p rest ih =>
    obtain ⟨k', v'⟩ := p
    simp only [List.cons_append, insPair]
    split
    · rfl
    · simp only [List.append_eq]
      simp [ih]

theorem insPair_append_ge (ck : Comparator α) (k k0 : α) (v v0 : β)
    (L R : List (α × β)) (hL : ∀ p ∈ L, ¬ ck k p.1 = -1) (h0 : ¬ ck k k0 = -1) :
    insPair ck k v (L ++ (k0, v0) :: R) = L ++ (k0, v0) :: insPair ck k v R := by
  induction L with
  | nil => simp [insPair, h0]
  | cons p rest ih =>
    obtain ⟨k', v'⟩ := p
    have hk' : ¬ ck k k' = -1 := hL (k', v') (by simp)
    simp only [List.cons_append, insPair, if_neg hk', List.append_eq]
    rw [ih (fun p hp => hL p (by simp [hp]))]

/-! ### BST invariant vs. sorted in-order traversal -/

theorem isBSTb_node {ck : Comparator α} {w : Int} {k : α} {v : β} {l r : Node α β} :
    isBSTb ck (Node.node w k v l r) = true ↔
      isBSTb ck l = true ∧ isBSTb ck r = true ∧
      (∀ x ∈ keysList l, ck x k = -1) ∧ (∀ x ∈ keysList r, ck k x = -1) := by
  simp only [isBSTb, Bool.and_eq_true, List.all_eq_true, beq_iff_eq]
  tauto

theorem isBSTb_iff_pairwise {ck : Comparator α} (hck : IsSTO ck) (t : Node α β) :
    isBSTb ck t = true ↔ List.Pairwise (fun a b => ck a b = -1) (keysList t) := by
  induction t with
  | nil => simp [isBSTb, keysList, inorderPairs]
  | node w k v l r ihl ihr =>
    rw [keysList_node, isBSTb_node, List.pairwise_append, List.pairwise_cons]
    constructor
    · rintro ⟨hl, hr, hbl, hbr⟩
      refine ⟨(ihl.mp hl), ⟨hbr, (ihr.mp hr)⟩, ?_⟩
      intro x hx y hy
      rcases List.mem_cons.mp hy with rfl | hy'
      · exact hbl x hx
      · exact hck.lt_trans x k y (hbl x hx) (hbr y hy')
    · rintro ⟨hpl, ⟨hbr, hpr⟩, hcross⟩
      refine ⟨ihl.mpr hpl, ihr.mpr hpr, ?_, hbr⟩
      intro x hx
      exact hcross x hx k (by simp)

theorem pairwise_insPair {ck : Comparator α} (hck : IsSTO ck) {k : α} {v : β}
    {L : List (α × β)} (hp : List.Pairwise (fun a b => ck a b = -1) (L.map Prod.fst))
    (hne : ∀ p ∈ L, p.1 ≠ k) :
    List.Pairwise (fun a b => ck a b = -1) ((insPair ck k v L).map Prod.fst) := by
  induction L with
  | nil => simp [insPair]
  | cons p rest ih =>
    obtain ⟨k1, v1⟩ := p
    simp only [List.map_cons, List.pairwise_cons] at hp
    obtain ⟨hk1, hrest⟩ := hp
    simp only [insPair]
    split
    · rename_i hlt
      simp only [List.map_cons, List.pairwise_cons]
      refine ⟨?_, ?_, hrest⟩
      · intro y hy
        rcases List.mem_cons.mp hy with rfl | hy'
        · exact hlt
        · exact hck.lt_trans k k1 y hlt (hk1 y hy')
      · exact hk1
    · rename_i hnlt
      simp only [List.map_cons, List.pairwise_cons]
      constructor
      · intro y hy
        obtain ⟨q, hq, rfl⟩ := List.mem_map.mp hy
        rcases insPair_mem hq with rfl | hq'
        · have hne1 : k1 ≠ k := hne (k1, v1) (by simp)
          rcases hck.valid k k1 with h | h | h
          · exact absurd h hnlt
          · exact absurd ((hck.eq_iff k k1).mp h).symm hne1
          · exact (hck.lt_iff k1 k).mpr h
        · exact hk1 q.1 (List.mem_map.mpr ⟨q, hq', rfl⟩)
      · exact ih hrest (fun p hp => hne p (by simp [hp]))

/-! ### The contents of `Insert`: sorted insertion into the in-order traversal -/

theorem insert_inorder {ck : Comparator α} (hck : IsSTO ck) (cw : Comparator Int)
    (k : α) (v : β) (w : Int) :
    ∀ t : Node α β, isBSTb ck t = true → (∀ x ∈ keysList t, x ≠ k) →
    inorderPairs (Insert ck cw t k v w).1 = insPair ck k v (inorderPairs t) := by
  intro t
  induction t with
  | nil =>
    intro _ _
    simp [Insert, upsert, inorderPairs, insPair]
  | node nw nk nv l r ihl ihr =>
    intro hbst habs
    rw [isBSTb_node] at hbst
    obtain ⟨hl, hr, hbl, hbr⟩ := hbst
    have hnk : nk ≠ k := habs nk (by rw [keysList_node]; simp)
    rcases hck.valid k nk with h | h | h
    · -- k compares -1: descend left
      have habs_l : ∀ x ∈ keysList l, x ≠ k := fun x hx =>
        habs x (by rw [keysList_node]; simp [hx])
      have hIH := ihl hl habs_l
      rcases hu : upsert ck cw l k v w true false none with ⟨res, created⟩
      rw [Insert, hu] at hIH
      cases res with
      | nil =>
        simp only [inorderPairs] at hIH
        exact absurd hIH.symm (insPair_ne_nil ck k v (inorderPairs l))
      | node rw1 rk1 rv1 rl1 rr1 =>
        show inorderPairs (upsert ck cw (Node.node nw nk nv l r) k v w true false none).1 = _
        simp only [upsert, h, hu]
        norm_num
        rw [inorder_rebalance]
        simp only [inorderPairs] at hIH ⊢
        rw [hIH, insPair_append_lt ck k nk v nv _ _ h]
    · exact absurd ((hck.eq_iff k nk).mp h).symm hnk
    · -- k compares 1: descend right
      have habs_r : ∀ x ∈ keysList r, x ≠ k := fun x hx =>
        habs x (by rw [keysList_node]; simp [hx])
      have hIH := ihr hr habs_r
      rcases hu : upsert ck cw r k v w true false none with ⟨res, created⟩
      rw [Insert, hu] at hIH
      cases res with
      | nil =>
        simp only [inorderPairs] at hIH
        exact absurd hIH.symm (insPair_ne_nil ck k v (inorderPairs r))
      | node rw1 rk1 rv1 rl1 rr1 =>
        show inorderPairs (upsert ck cw (Node.node nw nk nv l r) k v w true false none).1 = _
        simp only [upsert, h, hu]
        norm_num
        rw [inorder_rebalance]
        simp only [inorderPairs] at hIH ⊢
        rw [hIH, insPair_append_ge ck k nk v nv _ _ ?_ ?_]
        · intro p hp hcon
          have hb := hbl p.1 (List.mem_map.mpr ⟨p, hp, rfl⟩)
          have := hck.lt_trans k p.1 nk hcon hb
          omega
        · omega

/-- `Insert` (create, no update) of a key already present in a search
tree is the no-op sentinel: it returns the nil pointer and `false`. -/
theorem insert_present {ck : Comparator α} (hck : IsSTO ck) (cw : Comparator Int)
    (k : α) (v : β) (w : Int) :
    ∀ t : Node α β, isBSTb ck t = true → k ∈ keysList t →
    upsert ck cw t k v w true false none = (Node.nil, false) := by
  intro t
  induction t with
  | nil => intro _ hmem; simp [keysList, inorderPairs] at hmem
  | node nw nk nv l r ihl ihr =>
    intro hbst hmem
    rw [isBSTb_node] at hbst
    obtain ⟨hl, hr, hbl, hbr⟩ := hbst
    rw [keysList_node] at hmem
    rcases hck.valid k nk with h | h | h
    · have hkl : k ∈ keysList l := by
        rcases List.mem_append.mp hmem with h1 | h1
        · exact h1
        · rcases List.mem_cons.mp h1 with rfl | h2
          · have := hck.refl0 k; omega
          · have := (hck.lt_iff nk k).mp (hbr k h2); omega
      have hrec := ihl hl hkl
      simp only [upsert, h, hrec]
      norm_num
    · simp only [upsert, h]
      norm_num
    · have hkr : k ∈ keysList r := by
        rcases List.mem_append.mp hmem with h1 | h1
        · have := hbl k h1; omega
        · rcases List.mem_cons.mp h1 with rfl | h2
          · have := hck.refl0 k; omega
          · exact h2
      have hrec := ihr hr hkr
      simp only [upsert, h, hrec]
      norm_num

/-! ### The heap invariant -/

theorem isHeapb_node {cw : Comparator Int} {w : Int} {k : α} {v : β} {l r : Node α β} :
    isHeapb cw (Node.node w k v l r) = true ↔
      childOKb cw l w = true ∧ childOKb cw r w = true ∧
      isHeapb cw l = true ∧ isHeapb cw r = true := by
  simp only [isHeapb, Bool.and_eq_true]
  tauto

theorem childOKb_node {cw : Comparator Int} {w : Int} {k : α} {v : β} {l r : Node α β}
    {q : Int} : childOKb cw (Node.node w k v l r) q = true ↔ 0 ≤ cw w q := by
  simp [childOKb]

theorem childOKb_trans {cw : Comparator Int} (hcw : IsSTO cw) {c : Node α β} {p q : Int}
    (h1 : childOKb cw c p = true) (h2 : 0 ≤ cw p q) : childOKb cw c q = true := by
  cases c with
  | nil => rfl
  | node w k v l r =>
    rw [childOKb_node] at h1 ⊢
    exact hcw.ge_trans w p q h1 h2

theorem IsSTO.neg_flip {cw : Comparator γ} (h : IsSTO cw) {a b : γ}
    (hab : cw a b < 0) : 0 ≤ cw b a := by
  have h1 : cw a b = -1 := by rcases h.valid a b with h' | h' | h' <;> omega
  have := (h.lt_iff a b).mp h1
  omega

/-- Inductive core of the heap-invariant preservation proof for `Insert`:
the result is nil (no-op), or it is again a heap whose root either still
satisfies any parent bound the input satisfied, or carries the freshly
inserted weight `w` with both its children satisfying the old bound. -/
theorem insert_heap_aux {cw : Comparator Int} (hcw : IsSTO cw) (ck : Comparator α)
    (k : α) (v : β) (w : Int) :
    ∀ (t res : Node α β) (created : Bool), isHeapb cw t = true →
    upsert ck cw t k v w true false none = (res, created) →
    res = Node.nil ∨
    (isHeapb cw res = true ∧ ∀ q : Int, childOKb cw t q = true →
      childOKb cw res q = true ∨
      (res.weight = w ∧ childOKb cw res.leftChild q = true ∧
       childOKb cw res.rightChild q = true)) := by
  intro t
  induction t with
  | nil =>
    intro res created _ hu
    simp only [upsert, if_pos] at hu
    injection hu with hu1 hu2
    subst hu1
    refine Or.inr ⟨by simp [isHeapb, childOKb], ?_⟩
    intro q _
    exact Or.inr ⟨rfl, rfl, rfl⟩
  | node nw nk nv l r ihl ihr =>
    intro res created hheap hu
    rw [isHeapb_node] at hheap
    obtain ⟨hcl, hcr, hhl, hhr⟩ := hheap
    by_cases h1 : ck k nk = -1
    · -- descend left
      rcases hrec : upsert ck cw l k v w true false none with ⟨res_l, created_l⟩
      simp only [upsert, h1, if_pos, hrec] at hu
      cases res_l with
      | nil =>
        injection hu with hu1 hu2
        exact Or.inl hu1.symm
      | node a1 a2 a3 a4 a5 =>
        rcases ihl (Node.node a1 a2 a3 a4 a5) created_l hhl hrec with hnil | ⟨hheap_l, hq⟩
        · exact absurd hnil (by simp)
        · injection hu with hu1 hu2
          subst hu1
          rw [isHeapb_node] at hheap_l
          obtain ⟨hca4, hca5, hh4, hh5⟩ := hheap_l
          by_cases hrot : cw a1 nw < 0
          · -- left rotation fires
            rcases hq nw hcl with hok | ⟨hwq, hoL, hoR⟩
            · rw [childOKb_node] at hok; omega
            · simp only [Node.weight] at hwq
              simp only [Node.leftChild, Node.rightChild] at hoL hoR
              have hres : rebalance cw (Node.node nw nk nv (Node.node a1 a2 a3 a4 a5) r)
                  = Node.node a1 a2 a3 a4 (Node.node nw nk nv a5 r) := by
                simp [rebalance, leftRotation, hrot]
              rw [hres]
              have hnwa1 : 0 ≤ cw nw a1 := hcw.neg_flip hrot
              refine Or.inr ⟨?_, ?_⟩
              · rw [isHeapb_node]
                refine ⟨hca4, ?_, hh4, ?_⟩
                · rw [childOKb_node]; exact hnwa1
                · rw [isHeapb_node]
                  exact ⟨hoR, hcr, hh5, hhr⟩
              · intro q hcq
                rw [childOKb_node] at hcq
                simp only [Node.weight, Node.leftChild, Node.rightChild]
                refine Or.inr ⟨hwq, ?_, ?_⟩
                · exact childOKb_trans hcw hoL hcq
                · rw [childOKb_node]; exact hcq
          · -- no rotation (the right-rotation test cannot fire here)
            have hres : rebalance cw (Node.node nw nk nv (Node.node a1 a2 a3 a4 a5) r)
                = Node.node nw nk nv (Node.node a1 a2 a3 a4 a5) r := by
              cases r with
              | nil => simp [rebalance, hrot]
              | node b1 b2 b3 b4 b5 =>
                have hb : 0 ≤ cw b1 nw := childOKb_node.mp hcr
                have hb' : ¬ cw b1 nw < 0 := by omega
                simp [rebalance, hrot, hb']
            rw [hres]
            refine Or.inr ⟨?_, ?_⟩
            · rw [isHeapb_node]
              refine ⟨?_, hcr, ?_, hhr⟩
              · rw [childOKb_node]; omega
              · rw [isHeapb_node]; exact ⟨hca4, hca5, hh4, hh5⟩
            · intro q hcq
              rw [childOKb_node] at hcq
              exact Or.inl (by rw [childOKb_node]; exact hcq)
    · by_cases h2 : ck k nk = 1
      · -- descend right
        rcases hrec : upsert ck cw r k v w true false none with ⟨res_r, created_r⟩
        simp only [upsert, h1, h2, if_pos, if_neg, hrec] at hu
        norm_num at hu
        cases res_r with
        | nil =>
          injection hu with hu1 hu2
          exact Or.inl hu1.symm
        | node a1 a2 a3 a4 a5 =>
          rcases ihr (Node.node a1 a2 a3 a4 a5) created_r hhr hrec with hnil | ⟨hheap_r, hq⟩
          · exact absurd hnil (by simp)
          · injection hu with hu1 hu2
            subst hu1
            rw [isHeapb_node] at hheap_r
            obtain ⟨hca4, hca5, hh4, hh5⟩ := hheap_r
            by_cases hrot : cw a1 nw < 0
            · -- right rotation fires (left-rotation test cannot: l is an OK child)
              rcases hq nw hcr with hok | ⟨hwq, hoL, hoR⟩
              · rw [childOKb_node] at hok; omega
              · simp only [Node.weight] at hwq
                simp only [Node.leftChild, Node.rightChild] at hoL hoR
                have hres : rebalance cw (Node.node nw nk nv l (Node.node a1 a2 a3 a4 a5))
                    = Node.node a1 a2 a3 (Node.node nw nk nv l a4) a5 := by
                  cases l with
                  | nil => simp [rebalance, rightRotation, hrot]
                  | node c1 c2 c3 c4 c5 =>
                    have hc : 0 ≤ cw c1 nw := childOKb_node.mp hcl
                    have hc' : ¬ cw c1 nw < 0 := by omega
                    simp [rebalance, rightRotation, hrot, hc']
                rw [hres]
                have hnwa1 : 0 ≤ cw nw a1 := hcw.neg_flip hrot
                refine Or.inr ⟨?_, ?_⟩
                · rw [isHeapb_node]
                  refine ⟨?_, hca5, ?_, hh5⟩
                  · rw [childOKb_node]; exact hnwa1
                  · rw [isHeapb_node]
                    exact ⟨hcl, hoL, hhl, hh4⟩
                · intro q hcq
                  rw [childOKb_node] at hcq
                  simp only [Node.weight, Node.leftChild, Node.rightChild]
                  refine Or.inr ⟨hwq, ?_, ?_⟩
                  · rw [childOKb_node]; exact hcq
                  · exact childOKb_trans hcw hoR hcq
            · have hres : rebalance cw (Node.node nw nk nv l (Node.node a1 a2 a3 a4 a5))
                  = Node.node nw nk nv l (Node.node a1 a2 a3 a4 a5) := by
                cases l with
                | nil => simp [rebalance, hrot]
                | node c1 c2 c3 c4 c5 =>
                  have hc : 0 ≤ cw c1 nw := childOKb_node.mp hcl
                  have hc' : ¬ cw c1 nw < 0 := by omega
                  simp [rebalance, hrot, hc']
              rw [hres]
              refine Or.inr ⟨?_, ?_⟩
              · rw [isHeapb_node]
                refine ⟨hcl, ?_, hhl, ?_⟩
                · rw [childOKb_node]; omega
                · rw [isHeapb_node]; exact ⟨hca4, hca5, hh4, hh5⟩
              · intro q hcq
                rw [childOKb_node] at hcq
                exact Or.inl (by rw [childOKb_node]; exact hcq)
      · -- key found: insert-only is a no-op
        simp only [upsert, h1, h2, if_neg] at hu
        norm_num at hu
        exact Or.inl hu.1.symm

/-! ### `Get` finds every pair of a search tree; `Min`/`Max` and the traversal -/

theorem get_of_mem {ck : Comparator α} (hck : IsSTO ck) (k : α) (v : β) :
    ∀ t : Node α β, isBSTb ck t = true → (k, v) ∈ inorderPairs t →
    Get ck t k = (some v, true) := by
  intro t
  induction t with
  | nil => intro _ h; simp [inorderPairs] at h
  | node nw nk nv l r ihl ihr =>
    intro hbst hmem
    rw [isBSTb_node] at hbst
    obtain ⟨hl, hr, hbl, hbr⟩ := hbst
    simp only [inorderPairs, List.mem_append, List.mem_cons] at hmem
    rcases hmem with h | h | h
    · have hkl : k ∈ keysList l := List.mem_map.mpr ⟨(k, v), h, rfl⟩
      have hc : ck k nk = -1 := hbl k hkl
      have hstep : Get ck (Node.node nw nk nv l r) k = Get ck l k := by
        simp only [Get, GetNode, hc]
        norm_num
      rw [hstep]
      exact ihl hl h
    · injection h with hk hv
      subst hk
      subst hv
      simp [Get, GetNode, Node.item?, hck.refl0 k]
    · have hkr : k ∈ keysList r := List.mem_map.mpr ⟨(k, v), h, rfl⟩
      have hc : ck nk k = -1 := hbr k hkr
      have hc1 : ck k nk = 1 := (hck.lt_iff nk k).mp hc
      have hstep : Get ck (Node.node nw nk nv l r) k = Get ck r k := by
        simp only [Get, GetNode, hc1]
        norm_num
      rw [hstep]
      exact ihr hr h

theorem min_head (t : Node α β) :
    Min t = ((inorderPairs t).head?).map Prod.snd := by
  induction t with
  | nil => rfl
  | node w k v l r ihl ihr =>
    cases l with
    | nil => simp [Min, inorderPairs]
    | node lw lk lv ll lr =>
      have hne : inorderPairs (Node.node lw lk lv ll lr) ≠ [] := by
        simp [inorderPairs]
      have hh : (inorderPairs (Node.node w k v (Node.node lw lk lv ll lr) r)).head?
          = (inorderPairs (Node.node lw lk lv ll lr)).head? := by
        rw [show inorderPairs (Node.node w k v (Node.node lw lk lv ll lr) r)
              = inorderPairs (Node.node lw lk lv ll lr) ++ (k, v) :: inorderPairs r from rfl]
        exact List.head?_append_of_ne_nil _ hne
      rw [show Min (Node.node w k v (Node.node lw lk lv ll lr) r)
            = Min (Node.node lw lk lv ll lr) from rfl, ihl, hh]

theorem max_getLast (t : Node α β) :
    Max t = ((inorderPairs t).getLast?).map Prod.snd := by
  induction t with
  | nil => rfl
  | node w k v l r ihl ihr =>
    cases r with
    | nil =>
      rw [show Max (Node.node w k v l Node.nil) = some v from rfl]
      rw [show inorderPairs (Node.node w k v l Node.nil)
            = inorderPairs l ++ (k, v) :: ([] : List (α × β)) from rfl]
      rw [List.getLast?_append_cons]
      rfl
    | node rw1 rk1 rv1 rl1 rr1 =>
      have hne : inorderPairs (Node.node rw1 rk1 rv1 rl1 rr1) ≠ [] := by
        simp [inorderPairs]
      have hh : (inorderPairs (Node.node w k v l (Node.node rw1 rk1 rv1 rl1 rr1))).getLast?
          = (inorderPairs (Node.node rw1 rk1 rv1 rl1 rr1)).getLast? := by
        rw [show inorderPairs (Node.node w k v l (Node.node rw1 rk1 rv1 rl1 rr1))
              = inorderPairs l ++ (k, v) :: inorderPairs (Node.node rw1 rk1 rv1 rl1 rr1) from rfl]
        rw [List.getLast?_append_cons]
        rw [show ((k, v) :: inorderPairs (Node.node rw1 rk1 rv1 rl1 rr1))
              = [(k, v)] ++ inorderPairs (Node.node rw1 rk1 rv1 rl1 rr1) from rfl]
        exact List.getLast?_append_of_ne_nil _ hne
      rw [show Max (Node.node w k v l (Node.node rw1 rk1 rv1 rl1 rr1))
            = Max (Node.node rw1 rk1 rv1 rl1 rr1) from rfl, ihr, hh]

theorem rebalanceChecked_eq (cw : Comparator Int) (t : Node α β) :
    rebalanceChecked cw t = some (rebalance cw t) := by
  cases t with
  | nil => rfl
  | node w k v l r =>
    cases l with
    | nil =>
      cases r with
      | nil => rfl
      | node rw1 rk1 rv1 rl1 rr1 =>
        by_cases h : cw rw1 w < 0 <;>
          simp [rebalanceChecked, rebalance, h, rightRotationChecked, rightRotation]
    | node lw lk lv ll lr =>
      by_cases h1 : cw lw w < 0
      · simp [rebalanceChecked, rebalance, h1, leftRotationChecked, leftRotation]
      · cases r with
        | nil => simp [rebalanceChecked, rebalance, h1]
        | node rw1 rk1 rv1 rl1 rr1 =>
          by_cases h2 : cw rw1 w < 0 <;>
            simp [rebalanceChecked, rebalance, h1, h2, rightRotationChecked, rightRotation]

/-! ### The store only grows: every operation appends, nothing is overwritten -/

theorem leftRotationS_prefix (s : StoreS α β) (i : Nat) :
    ∃ d : StoreS α β, (leftRotationS s i).1 = s ++ d := by
  rcases h1 : s[i]? with _ | n
  · exact ⟨[], by simp [leftRotationS, h1]⟩
  · rcases h2 : n.Left with _ | li
    · exact ⟨[], by simp [leftRotationS, h1, h2]⟩
    · rcases h3 : s[li]? with _ | l
      · exact ⟨[], by simp [leftRotationS, h1, h2, h3]⟩
      · exact ⟨[⟨n.Weight, n.Key, n.Item, l.Right, n.Right⟩,
                ⟨l.Weight, l.Key, l.Item, l.Left, some s.length⟩],
          by simp [leftRotationS, h1, h2, h3]⟩

theorem rightRotationS_prefix (s : StoreS α β) (i : Nat) :
    ∃ d : StoreS α β, (rightRotationS s i).1 = s ++ d := by
  rcases h1 : s[i]? with _ | n
  · exact ⟨[], by simp [rightRotationS, h1]⟩
  · rcases h2 : n.Right with _ | ri
    · exact ⟨[], by simp [rightRotationS, h1, h2]⟩
    · rcases h3 : s[ri]? with _ | r
      · exact ⟨[], by simp [rightRotationS, h1, h2, h3]⟩
      · exact ⟨[⟨n.Weight, n.Key, n.Item, n.Left, r.Left⟩,
                ⟨r.Weight, r.Key, r.Item, some s.length, r.Right⟩],
          by simp [rightRotationS, h1, h2, h3]⟩

theorem rebalanceS_prefix (cw : Comparator Int) (s : StoreS α β) (i : Nat) :
    ∃ d : StoreS α β, (rebalanceS cw s i).1 = s ++ d := by
  rcases h1 : s[i]? with _ | n
  · exact ⟨[], by simp [rebalanceS, h1]⟩
  · rcases h2 : n.Left.bind (fun j => s[j]?) with _ | l
    · rcases h3 : n.Right.bind (fun j => s[j]?) with _ | r
      · exact ⟨[], by simp [rebalanceS, h1, h2, h3]⟩
      · by_cases h4 : cw r.Weight n.Weight < 0
        · obtain ⟨d, hd⟩ := rightRotationS_prefix s i
          exact ⟨d, by simp [rebalanceS, h1, h2, h3, h4, hd]⟩
        · exact ⟨[], by simp [rebalanceS, h1, h2, h3, h4]⟩
    · by_cases h4 : cw l.Weight n.Weight < 0
      · obtain ⟨d, hd⟩ := leftRotationS_prefix s i
        exact ⟨d, by simp [rebalanceS, h1, h2, h4, hd]⟩
      · rcases h3 : n.Right.bind (fun j => s[j]?) with _ | r
        · exact ⟨[], by simp [rebalanceS, h1, h2, h3, h4]⟩
        · by_cases h5 : cw r.Weight n.Weight < 0
          · obtain ⟨d, hd⟩ := rightRotationS_prefix s i
            exact ⟨d, by simp [rebalanceS, h1, h2, h3, h4, h5, hd]⟩
          · exact ⟨[], by simp [rebalanceS, h1, h2, h3, h4, h5]⟩

theorem upsertSF_prefix (ck : Comparator α) (cw : Comparator Int) (k : α) (v : β)
    (w : Int) (create update : Bool) (fn : Option (NodeS α β → Bool)) :
    ∀ (fuel : Nat) (s : StoreS α β) (p : Option Nat),
    ∃ d : StoreS α β, (upsertSF ck cw fuel s p k v w create update fn).1 = s ++ d := by
  intro fuel
  induction fuel with
  | zero => intro s p; exact ⟨[], by simp [upsertSF]⟩
  | succ fuel ih =>
    intro s p
    rcases p with _ | i
    · by_cases hc : create = true
      · exact ⟨[⟨w, k, v, none, none⟩], by simp [upsertSF, hc]⟩
      · exact ⟨[], by simp [upsertSF, hc]⟩
    · rcases hn : s[i]? with _ | n
      · exact ⟨[], by simp [upsertSF, hn]⟩
      · by_cases h1 : ck k n.Key = -1
        · obtain ⟨d1, hd1⟩ := ih s n.Left
          rcases hrec : upsertSF ck cw fuel s n.Left k v w create update fn with ⟨s1, rp, created⟩
          rw [hrec] at hd1
          simp only at hd1
          rcases rp with _ | ri
          · exact ⟨d1, by simp [upsertSF, hn, h1, hrec, hd1]⟩
          · obtain ⟨d2, hd2⟩ := rebalanceS_prefix cw
              (s1 ++ [⟨n.Weight, n.Key, n.Item, some ri, n.Right⟩]) s1.length
            refine ⟨d1 ++ [⟨n.Weight, n.Key, n.Item, some ri, n.Right⟩] ++ d2, ?_⟩
            simp only [upsertSF, hn, h1, hrec]
            norm_num
            rw [hd2, hd1]
            simp
        · by_cases h2 : ck k n.Key = 1
          · obtain ⟨d1, hd1⟩ := ih s n.Right
            rcases hrec : upsertSF ck cw fuel s n.Right k v w create update fn with ⟨s1, rp, created⟩
            rw [hrec] at hd1
            simp only at hd1
            rcases rp with _ | ri
            · exact ⟨d1, by simp [upsertSF, hn, h1, h2, hrec, hd1]⟩
            · obtain ⟨d2, hd2⟩ := rebalanceS_prefix cw
                (s1 ++ [⟨n.Weight, n.Key, n.Item, n.Left, some ri⟩]) s1.length
              refine ⟨d1 ++ [⟨n.Weight, n.Key, n.Item, n.Left, some ri⟩] ++ d2, ?_⟩
              simp only [upsertSF, hn, h1, h2, hrec]
              norm_num
              rw [hd2, hd1]
              simp
          · by_cases hu : update = true
            · rcases hf : fn with _ | f
              · obtain ⟨d2, hd2⟩ := rebalanceS_prefix cw
                  (s ++ [⟨w, n.Key, if create then v else n.Item, n.Left, n.Right⟩]) s.length
                refine ⟨[⟨w, n.Key, if create then v else n.Item, n.Left, n.Right⟩] ++ d2, ?_⟩
                simp only [upsertSF, hn, h1, h2, hu, hf]
                norm_num
                rw [hd2]
                simp
              · by_cases hfn : f n = true
                · obtain ⟨d2, hd2⟩ := rebalanceS_prefix cw
                    (s ++ [⟨w, n.Key, if create then v else n.Item, n.Left, n.Right⟩]) s.length
                  refine ⟨[⟨w, n.Key, if create then v else n.Item, n.Left, n.Right⟩] ++ d2, ?_⟩
                  simp only [upsertSF, hn, h1, h2, hu, hf, hfn]
                  norm_num
                  rw [hd2]
                  simp
                · exact ⟨[], by simp [upsertSF, hn, h1, h2, hu, hf, hfn]⟩
            · exact ⟨[], by simp [upsertSF, hn, h1, h2, hu]⟩

/-! ### Reads from the old root are unaffected by appended cells -/

theorem closed_child {s : StoreS α β} (hs : closedS s = true) {i : Nat} {n : NodeS α β}
    (h : s[i]? = some n) :
    ptrOK n.Left s.length = true ∧ ptrOK n.Right s.length = true := by
  have hmem : n ∈ s := List.getElem?_mem h
  have := List.all_eq_true.mp hs n hmem
  simpa [Bool.and_eq_true] using this

theorem getNodeSF_extend (ck : Comparator α) (Δ : StoreS α β) :
    ∀ (fuel : Nat) (s : StoreS α β) (p : Option Nat) (key : α),
    closedS s = true → ptrOK p s.length = true →
    getNodeSF ck fuel (s ++ Δ) p key = getNodeSF ck fuel s p key := by
  intro fuel
  induction fuel with
  | zero => intros; rfl
  | succ fuel ih =>
    intro s p key hs hp
    rcases p with _ | i
    · rfl
    · have hi : i < s.length := by simpa [ptrOK] using hp
      have hsi : (s ++ Δ)[i]? = s[i]? := List.getElem?_append_left hi
      rcases hn : s[i]? with _ | n
      · simp [getNodeSF, hsi, hn]
      · obtain ⟨hL, hR⟩ := closed_child hs hn
        simp only [getNodeSF, hsi, hn]
        split_ifs with c1 c2
        · exact ih s n.Left key hs hL
        · exact ih s n.Right key hs hR
        · rfl

theorem getNodeSF_res_valid (ck : Comparator α) :
    ∀ (fuel : Nat) (s : StoreS α β) (p : Option Nat) (key : α),
    closedS s = true → ptrOK p s.length = true →
    ptrOK (getNodeSF ck fuel s p key).1 s.length = true := by
  intro fuel
  induction fuel with
  | zero => intros; rfl
  | succ fuel ih =>
    intro s p key hs hp
    rcases p with _ | i
    · rfl
    · rcases hn : s[i]? with _ | n
      · simp [getNodeSF, hn, ptrOK]
      · obtain ⟨hL, hR⟩ := closed_child hs hn
        simp only [getNodeSF, hn]
        split_ifs with c1 c2
        · exact ih s n.Left key hs hL
        · exact ih s n.Right key hs hR
        · exact hp

theorem getSF_extend (ck : Comparator α) (Δ : StoreS α β) (fuel : Nat)
    (s : StoreS α β) (p : Option Nat) (key : α)
    (hs : closedS s = true) (hp : ptrOK p s.length = true) :
    getSF ck fuel (s ++ Δ) p key = getSF ck fuel s p key := by
  unfold getSF
  rw [getNodeSF_extend ck Δ fuel s p key hs hp]
  rcases hres : getNodeSF ck fuel s p key with ⟨rp, found⟩
  rcases rp with _ | i
  · rfl
  · cases found with
    | false => rfl
    | true =>
      have hv : ptrOK (some i) s.length = true := by
        have := getNodeSF_res_valid ck fuel s p key hs hp
        rw [hres] at this
        exact this
      have hi : i < s.length := by simpa [ptrOK] using hv
      simp [List.getElem?_append_left hi]

/-! ### Claim theorems -/

/-- C1, counterexample: the round-trip `Get(Insert(root, k, v, w), k) ==
(v, true)` fails when `k` is already present in `root`: inserting key `1`
(already present with item `10`) returns the nil sentinel tree, on which
`Get` finds nothing. -/
theorem insert_get_roundtrip_present_cex :
    Get intCmp (Insert intCmp intCmp
        (Node.node 5 (1 : Int) (10 : Int) Node.nil Node.nil) 1 99 7).1 1
      ≠ ((some 99 : Option Int), true)
    ∧ Get intCmp (Insert intCmp intCmp
        (Node.node 5 (1 : Int) (10 : Int) Node.nil Node.nil) 1 99 7).1 1
      = ((none : Option Int), false) := by
  constructor
  · decide
  · rfl

/-- C1, amended: for every root that satisfies the search-tree invariant
(the key comparator being a strict total order returning -1/0/1) and
every key `k` NOT already present in the root, `Get(Insert(root, k, v,
w).1, k) = (v, true)`; when `k` is present, `Insert` instead returns the
nil no-op sentinel (see the counterexample). -/
theorem insert_get_roundtrip_absent {α β : Type} (ck : Comparator α)
    (cw : Comparator Int) (hck : IsSTO ck) (t : Node α β) (k : α) (v : β) (w : Int)
    (hbst : isBSTb ck t = true) (habs : ∀ x ∈ keysList t, x ≠ k) :
    Get ck (Insert ck cw t k v w).1 k = (some v, true) := by
  have hio := insert_inorder hck cw k v w t hbst habs
  have hpair := (isBSTb_iff_pairwise hck t).mp hbst
  have hne : ∀ p ∈ inorderPairs t, p.1 ≠ k := fun p hp =>
    habs p.1 (List.mem_map.mpr ⟨p, hp, rfl⟩)
  have hbst' : isBSTb ck (Insert ck cw t k v w).1 = true := by
    rw [isBSTb_iff_pairwise hck]
    simp only [keysList] at hpair ⊢
    rw [hio]
    exact pairwise_insPair hck hpair hne
  have hmem : (k, v) ∈ inorderPairs (Insert ck cw t k v w).1 := by
    rw [hio]
    exact insPair_self_mem ck k v (inorderPairs t)
  exact get_of_mem hck k v _ hbst' hmem

/-- C1 witness: the amended round-trip at a concrete input. -/
theorem insert_get_roundtrip_absent_witness :
    Get intCmp (Insert intCmp intCmp
        (Node.node 5 (1 : Int) (10 : Int) Node.nil Node.nil) 3 30 2).1 3
      = (some 30, true) :=
  insert_get_roundtrip_absent intCmp intCmp intCmp_sto
    (Node.node 5 (1 : Int) (10 : Int) Node.nil Node.nil) 3 30 2
    (by decide) (by decide)

/-- C4, counterexample: `Insert` on an already-present key does return
`created = false`, but the returned tree is the NIL sentinel, not a tree
structurally identical (by key/value contents) to the input: the input
holds the pair `(1, 10)` while the returned tree is empty. -/
theorem insert_present_identical_cex :
    Insert intCmp intCmp (Node.node 5 (1 : Int) (10 : Int) Node.nil Node.nil) 1 99 7
      = (Node.nil, false)
    ∧ inorderPairs (Insert intCmp intCmp
        (Node.node 5 (1 : Int) (10 : Int) Node.nil Node.nil) 1 99 7).1 = []
    ∧ inorderPairs (Node.node 5 (1 : Int) (10 : Int) Node.nil Node.nil) = [(1, 10)] :=
  ⟨rfl, rfl, rfl⟩

/-- C4, amended: `Insert` of a key already present in a search tree is a
silent no-op and not an error: it returns `created = false` together with
the nil sentinel tree (meaning "nothing changed"; the input tree itself
is untouched), rather than a rebuilt copy of the input. -/
theorem insert_present_no_error {α β : Type} (ck : Comparator α)
    (cw : Comparator Int) (hck : IsSTO ck) (t : Node α β) (k : α) (v : β) (w : Int)
    (hbst : isBSTb ck t = true) (hmem : k ∈ keysList t) :
    Insert ck cw t k v w = (Node.nil, false) :=
  insert_present hck cw k v w t hbst hmem

/-- C4 witness: the amended no-op behaviour at a concrete input. -/
theorem insert_present_no_error_witness :
    Insert intCmp intCmp (Node.node 5 (1 : Int) (10 : Int)
        (Node.node 7 0 9 Node.nil Node.nil) Node.nil) 0 99 7 = (Node.nil, false) :=
  insert_present_no_error intCmp intCmp intCmp_sto
    (Node.node 5 (1 : Int) (10 : Int) (Node.node 7 0 9 Node.nil Node.nil) Node.nil)
    0 99 7 (by decide) (by decide)

/-- C6, counterexample: tree-handle construction does NOT fail when a
comparator is absent: `NewTreap` accepts a non-nil handle whose weight
comparator is nil and returns it, so a handle with a missing comparator
is returned. -/
theorem newTreap_missing_comparator_cex :
    NewTreap Int Int (some { CompareWeights := none, CompareKeys := some intCmp })
      = Except.ok { handle := { CompareWeights := none, CompareKeys := some intCmp },
                    root := Node.nil }
    ∧ ({ CompareWeights := none, CompareKeys := some intCmp } : Handle Int).CompareWeights
      = none :=
  ⟨rfl, rfl⟩

/-- C6, amended: `NewTreap` fails (with the error string "comparator is
nil") exactly when the handle pointer itself is nil; any non-nil handle is
accepted as-is, even if either comparator field is absent. -/
theorem newTreap_nil_handle_iff (α β : Type) (h : Handle α) :
    NewTreap α β none = Except.error "comparator is nil"
    ∧ NewTreap α β (some h) = Except.ok { handle := h, root := Node.nil } :=
  ⟨rfl, rfl⟩

/-- C10: `upsert` branches on the exact comparator values `-1`/`1` and
treats everything else as equality, while `GetNode` branches on the sign.
With a comparator returning `-2`/`2` for distinct keys: `Get` still finds
key 3 below the root (descending on `-2 < 0`), `GetNode` descends for the
absent key 2 and reports not-found, yet `Insert` of that same absent key 2
hits the `default` (equality) case at the root and returns a nil root
with `created = false`. -/
theorem upsert_vs_getNode_comparator_range :
    Get cmp2 (Node.node 1 (5 : Int) (50 : Int)
        (Node.node 2 3 30 Node.nil Node.nil) Node.nil) 3 = (some 30, true)
    ∧ GetNode cmp2 (Node.node 1 (5 : Int) (50 : Int)
        (Node.node 2 3 30 Node.nil Node.nil) Node.nil) 2 = (Node.nil, false)
    ∧ Insert cmp2 intCmp (Node.node 1 (5 : Int) (50 : Int)
        (Node.node 2 3 30 Node.nil Node.nil) Node.nil) 2 99 9 = (Node.nil, false) := by
  refine ⟨rfl, rfl, rfl⟩

/-- C2: every tree reachable from the empty tree by `Insert` operations
(with a strict total order key comparator returning -1/0/1) satisfies the
search-tree invariant, both node-wise (`isBSTb`: each left-subtree key
compares -1 against the node key, each right-subtree key has the node key
compare -1 against it) and as strict in-order sortedness of the keys. -/
theorem reachable_search_tree_invariant {α β : Type} {ck : Comparator α}
    {cw : Comparator Int} (hck : IsSTO ck) {t : Node α β}
    (hreach : Reachable ck cw t) :
    isBSTb ck t = true ∧ List.Pairwise (fun a b => ck a b = -1) (keysList t) := by
  induction hreach with
  | empty => exact ⟨rfl, by simp [keysList, inorderPairs]⟩
  | insert t k v w ht ih =>
    obtain ⟨hbst, hpair⟩ := ih
    by_cases hk : k ∈ keysList t
    · rw [show Insert ck cw t k v w = (Node.nil, false) from
        insert_present hck cw k v w t hbst hk]
      exact ⟨rfl, by simp [keysList, inorderPairs]⟩
    · have habs : ∀ x ∈ keysList t, x ≠ k := fun x hx hxe => hk (hxe ▸ hx)
      have hio := insert_inorder hck cw k v w t hbst habs
      have hne : ∀ p ∈ inorderPairs t, p.1 ≠ k := fun p hp =>
        habs p.1 (List.mem_map.mpr ⟨p, hp, rfl⟩)
      have hpair' : List.Pairwise (fun a b => ck a b = -1)
          ((insPair ck k v (inorderPairs t)).map Prod.fst) := by
        refine pairwise_insPair hck ?_ hne
        simpa [keysList] using hpair
      have hkeys : keysList (Insert ck cw t k v w).1
          = (insPair ck k v (inorderPairs t)).map Prod.fst := by
        simp only [keysList, hio]
      refine ⟨?_, ?_⟩
      · rw [isBSTb_iff_pairwise hck, hkeys]
        exact hpair'
      · rw [hkeys]
        exact hpair'

/-- C2 witness: the invariant holds on a concrete reachable tree. -/
theorem reachable_search_tree_invariant_witness :
    isBSTb intCmp ((Insert intCmp intCmp
        ((Insert intCmp intCmp (Node.nil : Node Int Int) 2 20 10).1) 1 5 3).1) = true
    ∧ List.Pairwise (fun a b => intCmp a b = -1)
        (keysList ((Insert intCmp intCmp
          ((Insert intCmp intCmp (Node.nil : Node Int Int) 2 20 10).1) 1 5 3).1)) :=
  reachable_search_tree_invariant intCmp_sto
    (Reachable.insert _ 1 5 3 (Reachable.insert _ 2 20 10 Reachable.empty))

/-- C3: every tree reachable from the empty tree by `Insert` operations
(with a strict total order weight comparator) satisfies the heap
invariant: for every node with a child, `compareWeights(child.Weight,
node.Weight) >= 0` — the single rotation per unwound level in `upsert`
suffices to restore the invariant after each insertion. -/
theorem reachable_heap_invariant {α β : Type} {ck : Comparator α}
    {cw : Comparator Int} (hcw : IsSTO cw) {t : Node α β}
    (hreach : Reachable ck cw t) : isHeapb cw t = true := by
  induction hreach with
  | empty => rfl
  | insert t k v w ht ih =>
    rcases hu : upsert ck cw t k v w true false none with ⟨res, created⟩
    rcases insert_heap_aux hcw ck k v w t res created ih hu with hnil | ⟨hh, _⟩
    · simp [Insert, hu, hnil, isHeapb]
    · simp [Insert, hu, hh]

/-- C3 witness: the heap invariant holds on a concrete reachable tree
(the insertion of weight 3 under weight 10 forces a rotation). -/
theorem reachable_heap_invariant_witness :
    isHeapb intCmp ((Insert intCmp intCmp
        ((Insert intCmp intCmp (Node.nil : Node Int Int) 2 20 10).1) 1 5 3).1) = true :=
  reachable_heap_invariant intCmp_sto
    (Reachable.insert _ 1 5 3 (Reachable.insert _ 2 20 10 Reachable.empty))

/-- C9: although `leftRotation`/`rightRotation` dereference the promoted
child unconditionally, every call site in `upsert` guards the rotation
with a non-nil check on that child, so for ALL inputs (any comparators,
tree, flags, predicate) the checked interpreter — which returns `none`
precisely when a rotation would dereference a nil child — returns exactly
`some` of the unchecked result: no nil dereference occurs. -/
theorem upsert_checked_no_nil_deref {α β : Type} (ck : Comparator α)
    (cw : Comparator Int) (t : Node α β) (k : α) (v : β) (w : Int)
    (create update : Bool) (fn : Option (Node α β → Bool)) :
    upsertChecked ck cw t k v w create update fn
      = some (upsert ck cw t k v w create update fn) := by
  induction t with
  | nil => by_cases hc : create = true <;> simp [upsertChecked, upsert, hc]
  | node nw nk nv l r ihl ihr =>
    by_cases h1 : ck k nk = -1
    · simp only [upsertChecked, upsert, h1, if_pos]
      rw [ihl]
      rcases upsert ck cw l k v w create update fn with ⟨res_l, cr⟩
      cases res_l with
      | nil => rfl
      | node a b c d e => simp [rebalanceChecked_eq]
    · by_cases h2 : ck k nk = 1
      · simp only [upsertChecked, upsert, h1, h2, if_pos, if_neg]
        rw [ihr]
        rcases upsert ck cw r k v w create update fn with ⟨res_r, cr⟩
        cases res_r with
        | nil => rfl
        | node a b c d e => simp [rebalanceChecked_eq]
      · by_cases hu : update = true
        · rcases fn with _ | f
          · simp [upsertChecked, upsert, h1, h2, hu, rebalanceChecked_eq]
          · by_cases hfn : f (Node.node nw nk nv l r) = true <;>
              simp [upsertChecked, upsert, h1, h2, hu, hfn, rebalanceChecked_eq]
        · simp [upsertChecked, upsert, h1, h2, hu]

/-- C5: `Min`/`Max` on the empty tree return the absent value, and on a
tree built by inserting keys 5, 3, 8, 1 (items 50, 30, 80, 10) with ANY
weights w1..w4, `Min` returns the item stored for key 1 and `Max` the
item stored for key 8 — the heap shape induced by the weights does not
affect them. -/
theorem min_max_scenario (w1 w2 w3 w4 : Int) :
    Min (Node.nil : Node Int Int) = none ∧ Max (Node.nil : Node Int Int) = none
    ∧ Min ((Insert intCmp intCmp ((Insert intCmp intCmp ((Insert intCmp intCmp
        ((Insert intCmp intCmp (Node.nil : Node Int Int) 5 50 w1).1)
        3 30 w2).1) 8 80 w3).1) 1 10 w4).1) = some 10
    ∧ Max ((Insert intCmp intCmp ((Insert intCmp intCmp ((Insert intCmp intCmp
        ((Insert intCmp intCmp (Node.nil : Node Int Int) 5 50 w1).1)
        3 30 w2).1) 8 80 w3).1) 1 10 w4).1) = some 80 := by
  set T1 := (Insert intCmp intCmp (Node.nil : Node Int Int) 5 50 w1).1 with hT1
  set T2 := (Insert intCmp intCmp T1 3 30 w2).1 with hT2
  set T3 := (Insert intCmp intCmp T2 8 80 w3).1 with hT3
  set T4 := (Insert intCmp intCmp T3 1 10 w4).1 with hT4
  have h1 : inorderPairs T1 = [(5, 50)] := by
    rw [hT1, insert_inorder intCmp_sto intCmp 5 50 w1 Node.nil rfl
      (by simp [keysList, inorderPairs])]
    decide
  have hk1 : keysList T1 = [5] := by simp [keysList, h1]
  have hb1 : isBSTb intCmp T1 = true := by
    rw [isBSTb_iff_pairwise intCmp_sto, hk1]; decide
  have ha1 : ∀ x ∈ keysList T1, x ≠ (3 : Int) := by rw [hk1]; decide
  have h2 : inorderPairs T2 = [(3, 30), (5, 50)] := by
    rw [hT2, insert_inorder intCmp_sto intCmp 3 30 w2 T1 hb1 ha1, h1]
    decide
  have hk2 : keysList T2 = [3, 5] := by simp [keysList, h2]
  have hb2 : isBSTb intCmp T2 = true := by
    rw [isBSTb_iff_pairwise intCmp_sto, hk2]; decide
  have ha2 : ∀ x ∈ keysList T2, x ≠ (8 : Int) := by rw [hk2]; decide
  have h3 : inorderPairs T3 = [(3, 30), (5, 50), (8, 80)] := by
    rw [hT3, insert_inorder intCmp_sto intCmp 8 80 w3 T2 hb2 ha2, h2]
    decide
  have hk3 : keysList T3 = [3, 5, 8] := by simp [keysList, h3]
  have hb3 : isBSTb intCmp T3 = true := by
    rw [isBSTb_iff_pairwise intCmp_sto, hk3]; decide
  have ha3 : ∀ x ∈ keysList T3, x ≠ (1 : Int) := by rw [hk3]; decide
  have h4 : inorderPairs T4 = [(1, 10), (3, 30), (5, 50), (8, 80)] := by
    rw [hT4, insert_inorder intCmp_sto intCmp 1 10 w4 T3 hb3 ha3, h3]
    decide
  refine ⟨rfl, rfl, ?_, ?_⟩
  · rw [min_head, h4]; rfl
  · rw [max_getLast, h4]; rfl

/-- C7: `Insert` never mutates a node reachable from its input root.  In
the explicit-heap embedding, running `upsert` (create, no update) only
appends fresh cells, so `Get` from the OLD root pointer returns the same
(value, found) answer for every key, at every fuel, after the call as
before it: the original tree version remains intact and traversable. -/
theorem insert_store_preserves_get {α β : Type} (ck : Comparator α)
    (cw : Comparator Int) (fuel fuel' : Nat) (s : StoreS α β) (root : Option Nat)
    (k key : α) (v : β) (w : Int)
    (hs : closedS s = true) (hroot : ptrOK root s.length = true) :
    getSF ck fuel' (upsertSF ck cw fuel s root k v w true false none).1 root key
      = getSF ck fuel' s root key := by
  obtain ⟨d, hd⟩ := upsertSF_prefix ck cw k v w true false none fuel s root
  rw [hd]
  exact getSF_extend ck d fuel' s root key hs hroot

/-- C7 witness: persistence at a concrete store (root a single cell with
key 1, then key 2 inserted). -/
theorem insert_store_preserves_get_witness :
    getSF intCmp 4 (upsertSF intCmp intCmp 4
        [(⟨5, (1 : Int), (10 : Int), none, none⟩ : NodeS Int Int)]
        (some 0) 2 20 3 true false none).1 (some 0) 1
      = getSF intCmp 4 [(⟨5, (1 : Int), (10 : Int), none, none⟩ : NodeS Int Int)]
          (some 0) 1 :=
  insert_store_preserves_get intCmp intCmp 4 4
    [(⟨5, (1 : Int), (10 : Int), none, none⟩ : NodeS Int Int)]
    (some 0) 2 1 20 3 (by decide) (by decide)

/-- C8: in the explicit-heap embedding, a left rotation on a node `n`
(at address `p`) with non-nil left child `l` appends exactly two cells —
first the rebuilt old root carrying `n`'s weight/key/item with left child
`l.Right` and right child `n.Right`, then the new subtree root carrying
`l`'s weight/key/item with left child `l.Left` and the rebuilt old root
as right child — reusing the grandchild subtrees by pointer, with no
other allocation or write; symmetrically for the right rotation; and both
rotations preserve the in-order (key, item) sequence of any tree. -/
theorem rotation_shape_sharing {α β : Type} (s s2 : StoreS α β) (p lp q rq : Nat)
    (n l m r : NodeS α β)
    (hp : s[p]? = some n) (hnl : n.Left = some lp) (hlp : s[lp]? = some l)
    (hq : s2[q]? = some m) (hmr : m.Right = some rq) (hrq : s2[rq]? = some r) :
    leftRotationS s p
      = (s ++ [⟨n.Weight, n.Key, n.Item, l.Right, n.Right⟩,
               ⟨l.Weight, l.Key, l.Item, l.Left, some s.length⟩], some (s.length + 1))
    ∧ rightRotationS s2 q
      = (s2 ++ [⟨m.Weight, m.Key, m.Item, m.Left, r.Left⟩,
                ⟨r.Weight, r.Key, r.Item, some s2.length, r.Right⟩], some (s2.length + 1))
    ∧ (∀ u : Node α β, inorderPairs (leftRotation u) = inorderPairs u)
    ∧ (∀ u : Node α β, inorderPairs (rightRotation u) = inorderPairs u) := by
  refine ⟨?_, ?_, inorder_leftRotation, inorder_rightRotation⟩
  · simp [leftRotationS, hp, hnl, hlp]
  · simp [rightRotationS, hq, hmr, hrq]

/-- C8 witness: both rotations at concrete two-cell stores. -/
theorem rotation_shape_sharing_witness :
    leftRotationS [(⟨2, (1 : Int), (10 : Int), none, none⟩ : NodeS Int Int),
                   ⟨1, 2, 20, some 0, none⟩] 1
      = ([⟨2, 1, 10, none, none⟩, ⟨1, 2, 20, some 0, none⟩,
          ⟨1, 2, 20, none, none⟩, ⟨2, 1, 10, none, some 2⟩], some 3)
    ∧ rightRotationS [(⟨2, (3 : Int), (30 : Int), none, none⟩ : NodeS Int Int),
                      ⟨1, 2, 20, none, some 0⟩] 1
      = ([⟨2, 3, 30, none, none⟩, ⟨1, 2, 20, none, some 0⟩,
          ⟨1, 2, 20, none, none⟩, ⟨2, 3, 30, some 2, none⟩], some 3) := by
  have h := rotation_shape_sharing
    [(⟨2, (1 : Int), (10 : Int), none, none⟩ : NodeS Int Int), ⟨1, 2, 20, some 0, none⟩]
    [(⟨2, (3 : Int), (30 : Int), none, none⟩ : NodeS Int Int), ⟨1, 2, 20, none, some 0⟩]
    1 0 1 0 ⟨1, 2, 20, some 0, none⟩ ⟨2, 1, 10, none, none⟩
    ⟨1, 2, 20, none, some 0⟩ ⟨2, 3, 30, none, none⟩ rfl rfl rfl rfl rfl rfl
  exact ⟨h.1, h.2.1⟩

end SafeTreap
